import Mathlib

/-!
Verification of the i18n extraction/reconciliation engine of
`mmgotool/commands/i18n.go` (xenia-utilities).

The Go code is shallowly embedded as executable Lean definitions:

* A translation catalog entry (`Translation` struct in Go, with an
  `interface{}` translation value) is the structure `Translation` below;
  the opaque JSON value is modelled by `TransValue` (a plain string, or a
  structured object of string fields, as used for pluralized messages).
* Go's `map[string]bool` string sets are modelled by `List String` with
  membership as the set; `map[string]Translation` is modelled by a list
  of entries with unique ids, with `mapSet` (insert-or-replace, as Go's
  `m[k] = v`) and `mapDel` (Go's `delete(m, k)`).  Everywhere the Go code
  ranges over a map it sorts the result afterwards (`sort.Strings`,
  `sort.Slice` on unique keys), so the nondeterministic map iteration
  order never reaches the output; the sorts are modelled with
  `List.insertionSort`, which computes the same uniquely determined
  sorted list.
* The `go/ast` fragments the scanner inspects are modelled by `GoExpr`
  (a `*ast.BasicLit` with its `Kind` and source `Value`, or any other
  expression), `CallFun` (the callee of an `*ast.CallExpr`: a
  `*ast.SelectorExpr`, a plain `*ast.Ident`, or anything else) and
  `ValueSpec` / `DeclTok` for `*ast.GenDecl` constant groups.
-/

/-- The translation value carried by a catalog entry.  In Go it is
`interface{}` (opaque JSON): a plain string (possibly empty, possibly
HTML-like text) or a structured pluralization object. -/
inductive TransValue where
  | str (s : String) : TransValue
  | obj (fields : List (String × String)) : TransValue
deriving DecidableEq

/-- One catalog entry: `type Translation struct { Id string; Translation interface{} }`. -/
structure Translation where
  id : String
  translation : TransValue
deriving DecidableEq

/-- Go source literal kinds (`token.INT`, ..., `token.STRING`) as carried by
`ast.BasicLit.Kind`. -/
inductive LitKind where
  | intLit | floatLit | imagLit | charLit | strLit
deriving DecidableEq

/-- An argument expression as seen by the extractor: either an
`*ast.BasicLit` (with its kind and its source text `Value`, which for a
string literal still carries the surrounding quotes), or any other
(non-literal, e.g. computed) expression. -/
inductive GoExpr where
  | basicLit (kind : LitKind) (value : String) : GoExpr
  | nonLit : GoExpr
deriving DecidableEq

/-- The callee of a call expression: `*ast.SelectorExpr` (matched by its
terminal name `Sel.Name`), a bare `*ast.Ident`, or any other form
(which the scanner ignores). -/
inductive CallFun where
  | selector (selName : String) : CallFun
  | ident (name : String) : CallFun
  | otherFun : CallFun
deriving DecidableEq

/-- One `*ast.ValueSpec` of a constant group: its declared names and its
initializer expressions. -/
structure ValueSpec where
  names : List String
  values : List GoExpr
deriving DecidableEq

/-- The token of a `*ast.GenDecl`: `token.CONST` or anything else. -/
inductive DeclTok where
  | constTok | otherTok
deriving DecidableEq

/-- `strings.Trim(s, "\x22")`: remove all leading and trailing quote
characters (modelled on the character list of the string). -/
def trimQuotes (s : String) : String :=
  String.mk (((s.data.dropWhile (· = '"')).reverse.dropWhile (· = '"')).reverse)

/-- The shared shape of every branch of `extractByFuncName`: check that the
argument at index `i` exists (`len(args)` check) and is an
`*ast.BasicLit` (type assertion), and return its `Value`. -/
def litArg (args : List GoExpr) (i : Nat) : Option String :=
  match args[i]? with
  | some (GoExpr.basicLit _ w) => some w
  | _ => none

/-- `extractByFuncName` from i18n.go: the call-site pattern table, one
if-branch per recognized function name, each returning the designated
literal argument (index 0 or 1) or nil. -/
def extractByFuncName (name : String) (args : List GoExpr) : Option String :=
  if name = "T" then litArg args 0
  else if name = "NewAppError" then litArg args 1
  else if name = "newAppError" then litArg args 0
  else if name = "translateFunc" then litArg args 0
  else if name = "TranslateAsHtml" then litArg args 1
  else if name = "userLocale" then litArg args 0
  else if name = "localT" then litArg args 0
  else none

/-- The allow-list `validConstants` of `extractForCostants`. -/
def validConstants : List String :=
  ["MISSING_CHANNEL_ERROR", "MISSING_CHANNEL_MEMBER_ERROR", "CHANNEL_EXISTS_ERROR",
   "MISSING_STATUS_ERROR", "TEAM_MEMBER_EXISTS_ERROR", "MISSING_AUTH_ACCOUNT_ERROR",
   "MISSING_ACCOUNT_ERROR", "EXPIRED_LICENSE_ERROR", "INVALID_LICENSE_ERROR"]

/-- `extractForCostants` from i18n.go: if the declared name is in the
allow-list and the initializer is an `*ast.BasicLit`, return its value. -/
def extractForCostants (name : String) (value_node : GoExpr) : Option String :=
  if name ∈ validConstants then
    match value_node with
    | GoExpr.basicLit _ v => some v
    | _ => none
  else none

/-- The `*ast.CallExpr` case of the `ast.Inspect` callback in
`extractFromPath`: a selector callee is matched by `fun.Sel.Name`, a bare
identifier by `fun.Name`, anything else yields no identifier. -/
def callExprId : CallFun → List GoExpr → Option String
  | CallFun.selector n, args => extractByFuncName n args
  | CallFun.ident n, args => extractByFuncName n args
  | CallFun.otherFun, _ => none

/-- The identifier a matched call contributes to the discovered set:
`strings.Trim(*id, "\x22")` applied to the matched literal value. -/
def callDiscovered (f : CallFun) (args : List GoExpr) : Option String :=
  (callExprId f args).map trimQuotes

/-- The per-spec step of the `*ast.GenDecl` case of `extractFromPath`:
skip a spec with no names or no values, otherwise delegate
`Names[0].Name` and `Values[0]` to `extractForCostants` and quote-trim
the result. -/
def specConstId (vs : ValueSpec) : Option String :=
  match vs.names[0]?, vs.values[0]? with
  | some n, some v => (extractForCostants n v).map trimQuotes
  | _, _ => none

/-- The identifiers a `*ast.GenDecl` contributes: only `token.CONST`
groups are inspected, and each spec contributes via `specConstId`. -/
def genDeclIds (tok : DeclTok) (specs : List ValueSpec) : List String :=
  if tok = DeclTok.constTok then specs.filterMap specConstId else []

/-- The fixed list added by `addDynamicallyGeneratedStrings`. -/
def injectedStrings : List String :=
  ["model.user.is_valid.pwd.app_error",
   "model.user.is_valid.pwd_lowercase.app_error",
   "model.user.is_valid.pwd_lowercase_number.app_error",
   "model.user.is_valid.pwd_lowercase_number_symbol.app_error",
   "model.user.is_valid.pwd_lowercase_symbol.app_error",
   "model.user.is_valid.pwd_lowercase_uppercase.app_error",
   "model.user.is_valid.pwd_lowercase_uppercase_number.app_error",
   "model.user.is_valid.pwd_lowercase_uppercase_number_symbol.app_error",
   "model.user.is_valid.pwd_lowercase_uppercase_symbol.app_error",
   "model.user.is_valid.pwd_number.app_error",
   "model.user.is_valid.pwd_number_symbol.app_error",
   "model.user.is_valid.pwd_symbol.app_error",
   "model.user.is_valid.pwd_uppercase.app_error",
   "model.user.is_valid.pwd_uppercase_number.app_error",
   "model.user.is_valid.pwd_uppercase_number_symbol.app_error",
   "model.user.is_valid.pwd_uppercase_symbol.app_error",
   "model.user.is_valid.id.app_error",
   "model.user.is_valid.create_at.app_error",
   "model.user.is_valid.update_at.app_error",
   "model.user.is_valid.username.app_error",
   "model.user.is_valid.email.app_error",
   "model.user.is_valid.nickname.app_error",
   "model.user.is_valid.position.app_error",
   "model.user.is_valid.first_name.app_error",
   "model.user.is_valid.last_name.app_error",
   "model.user.is_valid.auth_data.app_error",
   "model.user.is_valid.auth_data_type.app_error",
   "model.user.is_valid.auth_data_pwd.app_error",
   "model.user.is_valid.password_limit.app_error",
   "model.user.is_valid.locale.app_error",
   "January", "February", "March", "April", "May", "June", "July",
   "August", "September", "October", "November", "December"]

/-- The `i18nStrings` set after `addDynamicallyGeneratedStrings`:
the scanned identifiers `d` together with the injected list (a
`map[string]bool` used as a set; membership in this list is the set). -/
def i18nStringsOf (d : List String) : List String := d ++ injectedStrings

/-- `i18nStringsList`: the keys of the `i18nStrings` set collected and
sorted with `sort.Strings` (the sorted duplicate-free list of the set). -/
def i18nStringsList (d : List String) : List String :=
  List.insertionSort (· ≤ ·) (i18nStringsOf d).dedup

/-- `translationsList`: the ids of the current catalog entries, in file
order, then sorted with `sort.Strings` (duplicates, if any, kept). -/
def translationsListOf (c : List Translation) : List String :=
  List.insertionSort (· ≤ ·) (c.map (·.id))

/-- Go map write `m[t.Id] = t` on a map represented as an entry list with
unique ids: replace the entry with the same id, or append. -/
def mapSet : List Translation → Translation → List Translation
  | [], t => [t]
  | u :: m, t => if u.id = t.id then t :: m else u :: mapSet m t

/-- Go map delete `delete(m, k)` on the entry-list representation. -/
def mapDel (m : List Translation) (k : String) : List Translation :=
  m.filter (fun u => decide (u.id ≠ k))

/-- Go map read `m[k]` on the entry-list representation. -/
def lookupId (m : List Translation) (k : String) : Option Translation :=
  m.find? (fun u => decide (u.id = k))

/-- The `resultMap` of `extractCmdF` after the first loop: every existing
catalog entry inserted under its id (`resultMap[t.Id] = t`), a later
duplicate id overwriting an earlier one. -/
def resultMap0 (c : List Translation) : List Translation :=
  c.foldl mapSet []

/-- `resultMap` after the second loop of `extractCmdF`: for every sorted
discovered identifier not among the catalog ids (`idx`), insert a new
entry with the empty-string placeholder value. -/
def resultMap1 (d : List String) (c : List Translation) : List Translation :=
  (i18nStringsList d).foldl
    (fun m k =>
      if k ∈ c.map (·.id) then m
      else mapSet m { id := k, translation := TransValue.str "" })
    (resultMap0 c)

/-- `resultMap` after the third loop of `extractCmdF`: every catalog id
absent from the `i18nStrings` set is deleted. -/
def resultMap2 (d : List String) (c : List Translation) : List Translation :=
  (translationsListOf c).foldl
    (fun m k => if k ∈ i18nStringsOf d then m else mapDel m k)
    (resultMap1 d c)

/-- The output catalog of `extractCmdF`: the final `resultMap` entries
sorted by id (`sort.Slice` with `result[i].Id < result[j].Id`; the ids
are unique map keys, so the sorted entry list is uniquely determined
whatever iteration order Go's map range produced). -/
def extract (d : List String) (c : List Translation) : List Translation :=
  List.insertionSort (fun a b => a.id ≤ b.id) (resultMap2 d c)

/-- The last catalog entry carrying the id `k`, if any: this is the value
`resultMap0` ends up storing for a duplicated id. -/
def lastCat (c : List Translation) (k : String) : Option Translation :=
  (c.filter (fun u => decide (u.id = k))).getLast?

/-- The "Added:" lines of `checkCmdF`: sorted discovered identifiers
missing from the catalog id set `idx`, in print order. -/
def checkAdded (d : List String) (c : List Translation) : List String :=
  (i18nStringsList d).filter (fun k => decide (k ∉ c.map (·.id)))

/-- The "Removed:" lines of `checkCmdF`: sorted catalog ids missing from
the `i18nStrings` set, in print order. -/
def checkRemoved (d : List String) (c : List Translation) : List String :=
  (translationsListOf c).filter (fun k => decide (k ∉ i18nStringsOf d))

/-- The `changed` flag of `checkCmdF`: set exactly when either loop
printed a line. -/
def checkChanged (d : List String) (c : List Translation) : Bool :=
  !(checkAdded d c).isEmpty || !(checkRemoved d c).isEmpty

/-- The return value of `checkCmdF` (after a successful catalog read):
the out-of-date error when `changed` was set, success otherwise. -/
def checkResult (d : List String) (c : List Translation) : Except String Unit :=
  if checkChanged d c then Except.error "Translations file out of date."
  else Except.ok ()

/-- `getCurrentTranslations` from i18n.go.  `readFileResult` is the
outcome of `ioutil.ReadFile` (the file bytes, or a read error);
`unmarshal` models `json.Unmarshal` into `[]Translation`, returning the
(possibly partial, possibly empty) decoded value together with its error
value — which the Go code discards. -/
def getCurrentTranslations (unmarshal : String → List Translation × Option String)
    (readFileResult : Except String String) : Except String (List Translation) :=
  match readFileResult with
  | Except.error e => Except.error e
  | Except.ok bytes => Except.ok (unmarshal bytes).1

/-- The state the two commands can touch: the contents of the catalog
file `i18n/en.json` (`none` when missing/unreadable). -/
structure FileSystem where
  catalogFile : Option String
deriving DecidableEq

/-- A run of `checkCmdF` over the file-system state: read the catalog
(decode is `json.Unmarshal`, external), report, and return the verdict.
No write is performed on any path. -/
def checkRun (decode : String → List Translation) (d : List String)
    (fs : FileSystem) : FileSystem × Except String Unit :=
  match fs.catalogFile with
  | none => (fs, Except.error "could not read i18n/en.json")
  | some bytes => (fs, checkResult d (decode bytes))

/-- A run of `extractCmdF` over the file-system state: read the catalog,
reconcile, and rewrite `i18n/en.json` with the encoded result
(`enc` models the deterministic JSON encoder). -/
def extractRun (decode : String → List Translation)
    (enc : List Translation → String) (d : List String)
    (fs : FileSystem) : FileSystem × Except String Unit :=
  match fs.catalogFile with
  | none => (fs, Except.error "could not read i18n/en.json")
  | some bytes =>
    ({ catalogFile := some (enc (extract d (decode bytes))) }, Except.ok ())

/-! ### Helper lemmas about the map model -/

instance : IsTrans Translation (fun a b => a.id ≤ b.id) :=
  ⟨fun _ _ _ h h' => le_trans h h'⟩

instance : IsTotal Translation (fun a b => a.id ≤ b.id) :=
  ⟨fun a b => le_total a.id b.id⟩

instance : IsAntisymm Translation (fun a b => a.id < b.id) :=
  ⟨fun _ _ h h' => absurd (lt_trans h h') (lt_irrefl _)⟩

instance : IsAntisymm String (fun a b => a < b) :=
  ⟨fun _ _ h h' => absurd (lt_trans h h') (lt_irrefl _)⟩

theorem mapSet_nil (t : Translation) : mapSet [] t = [t] := rfl

theorem mapSet_cons (u : Translation) (m : List Translation) (t : Translation) :
    mapSet (u :: m) t = if u.id = t.id then t :: m else u :: mapSet m t := rfl

theorem lookupId_nil (k : String) : lookupId [] k = none := rfl

theorem lookupId_cons (u : Translation) (m : List Translation) (k : String) :
    lookupId (u :: m) k = if u.id = k then some u else lookupId m k := by
  by_cases h : u.id = k <;> simp [lookupId, List.find?_cons, h]

theorem lookupId_mapSet_self (m : List Translation) (t : Translation) :
    lookupId (mapSet m t) t.id = some t := by
  induction m with
  | nil => rw [mapSet_nil, lookupId_cons, if_pos rfl]
  | cons u m ih =>
    by_cases h : u.id = t.id
    · rw [mapSet_cons, if_pos h, lookupId_cons, if_pos rfl]
    · rw [mapSet_cons, if_neg h, lookupId_cons, if_neg h, ih]

theorem lookupId_mapSet_ne (m : List Translation) (t : Translation) (k : String)
    (hk : k ≠ t.id) : lookupId (mapSet m t) k = lookupId m k := by
  induction m with
  | nil =>
    rw [mapSet_nil, lookupId_cons, if_neg (fun h : t.id = k => hk h.symm), lookupId_nil]
  | cons u m ih =>
    by_cases h : u.id = t.id
    · rw [mapSet_cons, if_pos h, lookupId_cons, lookupId_cons,
        if_neg (fun hh : t.id = k => hk hh.symm),
        if_neg (fun hh : u.id = k => hk ((h ▸ hh : t.id = k)).symm)]
    · rw [mapSet_cons, if_neg h, lookupId_cons, lookupId_cons, ih]

theorem mem_map_id_mapSet (m : List Translation) (t : Translation) (k : String) :
    k ∈ (mapSet m t).map (·.id) ↔ k ∈ m.map (·.id) ∨ k = t.id := by
  induction m with
  | nil => rw [mapSet_nil]; simp
  | cons u m ih =>
    by_cases h : u.id = t.id
    · rw [mapSet_cons, if_pos h]
      simp only [List.map_cons, List.mem_cons, h]
      tauto
    · rw [mapSet_cons, if_neg h]
      simp only [List.map_cons, List.mem_cons, ih]
      tauto

theorem nodup_map_id_mapSet (m : List Translation) (t : Translation)
    (h : (m.map (·.id)).Nodup) : ((mapSet m t).map (·.id)).Nodup := by
  induction m with
  | nil => rw [mapSet_nil]; simp
  | cons u m ih =>
    simp only [List.map_cons, List.nodup_cons] at h
    by_cases he : u.id = t.id
    · rw [mapSet_cons, if_pos he]
      simp only [List.map_cons, List.nodup_cons]
      exact ⟨he ▸ h.1, h.2⟩
    · rw [mapSet_cons, if_neg he]
      simp only [List.map_cons, List.nodup_cons]
      refine ⟨fun hm => ?_, ih h.2⟩
      rcases (mem_map_id_mapSet m t u.id).mp hm with h1 | h1
      · exact h.1 h1
      · exact he h1

theorem lookupId_mapDel (m : List Translation) (k j : String) :
    lookupId (mapDel m k) j = if j = k then none else lookupId m j := by
  induction m with
  | nil =>
    rw [show mapDel [] k = [] from rfl, lookupId_nil]
    by_cases hj : j = k
    · rw [if_pos hj]
    · rw [if_neg hj]
  | cons u m ih =>
    simp only [mapDel] at ih ⊢
    by_cases hu : u.id = k
    · rw [List.filter_cons_of_neg (by simp [hu]), ih, lookupId_cons]
      by_cases hj : j = k
      · simp only [if_pos hj]
      · simp only [if_neg hj, if_neg (fun huj : u.id = j => hj (huj.symm.trans hu))]
    · rw [List.filter_cons_of_pos (by simp [hu]), lookupId_cons, lookupId_cons, ih]
      by_cases huj : u.id = j
      · rw [if_pos huj, if_pos huj, if_neg (fun hj : j = k => hu (huj.trans hj))]
      · simp only [if_neg huj]

theorem nodup_map_id_mapDel (m : List Translation) (k : String)
    (h : (m.map (·.id)).Nodup) : ((mapDel m k).map (·.id)).Nodup :=
  ((List.filter_sublist m).map (·.id)).nodup h

theorem getLast?_cons_eq_or {α : Type} (a : α) (l : List α) :
    (a :: l).getLast? = l.getLast?.or (some a) := by
  cases l with
  | nil => simp
  | cons b l =>
    rw [List.getLast?_cons_cons]
    rcases h : (b :: l).getLast? with _ | x
    · exact absurd (List.getLast?_eq_none_iff.mp h) (by simp)
    · simp

theorem lookupId_foldl_mapSet (c : List Translation) (m : List Translation) (k : String) :
    lookupId (c.foldl mapSet m) k
      = ((c.filter (fun u => decide (u.id = k))).getLast?).or (lookupId m k) := by
  induction c generalizing m with
  | nil => simp
  | cons t c ih =>
    rw [List.foldl_cons, ih]
    by_cases h : t.id = k
    · rw [List.filter_cons_of_pos (by simp [h]), getLast?_cons_eq_or, Option.or_assoc]
      have : lookupId (mapSet m t) k = some t := h ▸ lookupId_mapSet_self m t
      rw [this]
      rcases (c.filter (fun u => decide (u.id = k))).getLast? with _ | x <;> simp
    · rw [List.filter_cons_of_neg (by simp [h]),
        lookupId_mapSet_ne m t k (fun hk => h hk.symm)]

theorem lookupId_resultMap0 (c : List Translation) (k : String) :
    lookupId (resultMap0 c) k = lastCat c k := by
  rw [resultMap0, lookupId_foldl_mapSet, lookupId_nil, Option.or_none, lastCat]

theorem nodup_foldl_mapSet (c : List Translation) (m : List Translation)
    (h : (m.map (·.id)).Nodup) : (((c.foldl mapSet m).map (·.id))).Nodup := by
  induction c generalizing m with
  | nil => exact h
  | cons t c ih => exact ih (mapSet m t) (nodup_map_id_mapSet m t h)

theorem nodup_resultMap0 (c : List Translation) :
    ((resultMap0 c).map (·.id)).Nodup :=
  nodup_foldl_mapSet c [] (by simp)

theorem lookupId_foldl_addNew (cids : List String) (L : List String)
    (m : List Translation) (hL : L.Nodup) (k : String) :
    lookupId (L.foldl (fun m k' => if k' ∈ cids then m
        else mapSet m { id := k', translation := TransValue.str "" }) m) k
      = if k ∈ L ∧ k ∉ cids then some { id := k, translation := TransValue.str "" }
        else lookupId m k := by
  induction L generalizing m with
  | nil => simp
  | cons a L ih =>
    have haL : a ∉ L := (List.nodup_cons.mp hL).1
    have hL' : L.Nodup := (List.nodup_cons.mp hL).2
    rw [List.foldl_cons]
    by_cases ha : a ∈ cids
    · rw [if_pos ha, ih _ hL']
      have : (k ∈ a :: L ∧ k ∉ cids) ↔ (k ∈ L ∧ k ∉ cids) := by
        simp only [List.mem_cons]
        constructor
        · rintro ⟨h1 | h1, h2⟩
          · exact absurd (h1 ▸ ha) h2
          · exact ⟨h1, h2⟩
        · exact fun ⟨h1, h2⟩ => ⟨Or.inr h1, h2⟩
      rw [if_congr this rfl rfl]
    · rw [if_neg ha, ih _ hL']
      by_cases hk : k ∈ L ∧ k ∉ cids
      · rw [if_pos hk, if_pos ⟨List.mem_cons_of_mem a hk.1, hk.2⟩]
      · rw [if_neg hk]
        by_cases hka : k = a
        · subst hka
          rw [if_pos ⟨List.mem_cons_self k L, ha⟩]
          exact lookupId_mapSet_self m _
        · rw [lookupId_mapSet_ne m _ k hka,
            if_neg (fun hh : k ∈ a :: L ∧ k ∉ cids => by
              rcases List.mem_cons.mp hh.1 with h1 | h1
              · exact hka h1
              · exact hk ⟨h1, hh.2⟩)]

theorem lookupId_foldl_del (allS : List String) (L : List String)
    (m : List Translation) (k : String) :
    lookupId (L.foldl (fun m k' => if k' ∈ allS then m else mapDel m k') m) k
      = if k ∈ L ∧ k ∉ allS then none else lookupId m k := by
  induction L generalizing m with
  | nil => simp
  | cons a L ih =>
    rw [List.foldl_cons]
    by_cases ha : a ∈ allS
    · rw [if_pos ha, ih]
      have : (k ∈ a :: L ∧ k ∉ allS) ↔ (k ∈ L ∧ k ∉ allS) := by
        simp only [List.mem_cons]
        constructor
        · rintro ⟨h1 | h1, h2⟩
          · exact absurd (h1 ▸ ha) h2
          · exact ⟨h1, h2⟩
        · exact fun ⟨h1, h2⟩ => ⟨Or.inr h1, h2⟩
      rw [if_congr this rfl rfl]
    · rw [if_neg ha, ih, lookupId_mapDel]
      by_cases hk : k ∈ L ∧ k ∉ allS
      · rw [if_pos hk, if_pos ⟨List.mem_cons_of_mem a hk.1, hk.2⟩]
      · rw [if_neg hk]
        by_cases hka : k = a
        · subst hka
          rw [if_pos rfl, if_pos ⟨List.mem_cons_self k L, ha⟩]
        · rw [if_neg hka,
            if_neg (fun hh : k ∈ a :: L ∧ k ∉ allS => by
              rcases List.mem_cons.mp hh.1 with h1 | h1
              · exact hka h1
              · exact hk ⟨h1, hh.2⟩)]

theorem nodup_foldl_addNew (cids : List String) (L : List String)
    (m : List Translation) (h : (m.map (·.id)).Nodup) :
    (((L.foldl (fun m k' => if k' ∈ cids then m
        else mapSet m { id := k', translation := TransValue.str "" }) m).map (·.id))).Nodup := by
  induction L generalizing m with
  | nil => exact h
  | cons a L ih =>
    rw [List.foldl_cons]
    by_cases ha : a ∈ cids
    · rw [if_pos ha]; exact ih m h
    · rw [if_neg ha]; exact ih _ (nodup_map_id_mapSet m _ h)

theorem nodup_foldl_del (allS : List String) (L : List String)
    (m : List Translation) (h : (m.map (·.id)).Nodup) :
    (((L.foldl (fun m k' => if k' ∈ allS then m else mapDel m k') m).map (·.id))).Nodup := by
  induction L generalizing m with
  | nil => exact h
  | cons a L ih =>
    rw [List.foldl_cons]
    by_cases ha : a ∈ allS
    · rw [if_pos ha]; exact ih m h
    · rw [if_neg ha]; exact ih _ (nodup_map_id_mapDel m _ h)

theorem mem_i18nStringsList (d : List String) (k : String) :
    k ∈ i18nStringsList d ↔ k ∈ i18nStringsOf d := by
  rw [i18nStringsList, List.mem_insertionSort, List.mem_dedup]

theorem nodup_i18nStringsList (d : List String) : (i18nStringsList d).Nodup :=
  (List.perm_insertionSort (· ≤ ·) (i18nStringsOf d).dedup).symm.nodup
    (List.nodup_dedup _)

theorem mem_translationsListOf (c : List Translation) (k : String) :
    k ∈ translationsListOf c ↔ k ∈ c.map (·.id) := by
  rw [translationsListOf, List.mem_insertionSort]

theorem lastCat_eq_none_iff (c : List Translation) (k : String) :
    lastCat c k = none ↔ k ∉ c.map (·.id) := by
  rw [lastCat, List.getLast?_eq_none_iff, List.filter_eq_nil_iff]
  simp

theorem lastCat_mem_filter (c : List Translation) (k : String) (t : Translation)
    (h : lastCat c k = some t) : t ∈ c ∧ t.id = k := by
  have hm : t ∈ c.filter (fun u => decide (u.id = k)) :=
    List.mem_of_mem_getLast? (Option.mem_def.mpr h)
  have := List.mem_filter.mp hm
  exact ⟨this.1, by simpa using this.2⟩

theorem lookupId_resultMap2 (d : List String) (c : List Translation) (k : String) :
    lookupId (resultMap2 d c) k
      = if k ∈ i18nStringsOf d
        then some ((lastCat c k).getD { id := k, translation := TransValue.str "" })
        else none := by
  rw [resultMap2, lookupId_foldl_del, resultMap1,
    lookupId_foldl_addNew _ _ _ (nodup_i18nStringsList d), lookupId_resultMap0]
  by_cases hk : k ∈ i18nStringsOf d
  · rw [if_neg (fun hh : k ∈ translationsListOf c ∧ k ∉ i18nStringsOf d => hh.2 hk),
      if_pos hk]
    by_cases hc : k ∈ c.map (·.id)
    · rw [if_neg (fun hh : k ∈ i18nStringsList d ∧ k ∉ c.map (·.id) => hh.2 hc)]
      rcases h : lastCat c k with _ | t
      · exact absurd ((lastCat_eq_none_iff c k).mp h) (by simpa using hc)
      · simp
    · rw [if_pos ⟨(mem_i18nStringsList d k).mpr hk, hc⟩,
        (lastCat_eq_none_iff c k).mpr hc]
      simp
  · rw [if_neg hk]
    by_cases hc : k ∈ c.map (·.id)
    · rw [if_pos ⟨(mem_translationsListOf c k).mpr hc, hk⟩]
    · rw [if_neg (fun hh : k ∈ translationsListOf c ∧ k ∉ i18nStringsOf d =>
          hc ((mem_translationsListOf c k).mp hh.1)),
        if_neg (fun hh : k ∈ i18nStringsList d ∧ k ∉ c.map (·.id) =>
          hk ((mem_i18nStringsList d k).mp hh.1)),
        (lastCat_eq_none_iff c k).mpr hc]

theorem nodup_resultMap2 (d : List String) (c : List Translation) :
    ((resultMap2 d c).map (·.id)).Nodup := by
  rw [resultMap2, resultMap1]
  exact nodup_foldl_del _ _ _ (nodup_foldl_addNew _ _ _ (nodup_resultMap0 c))

theorem lookupId_isSome_iff (m : List Translation) (k : String) :
    (lookupId m k).isSome ↔ k ∈ m.map (·.id) := by
  rw [lookupId, List.find?_isSome]
  simp [eq_comm]

theorem lookupId_eq_some_iff (m : List Translation) (k : String) (t : Translation)
    (hn : (m.map (·.id)).Nodup) :
    lookupId m k = some t ↔ t ∈ m ∧ t.id = k := by
  induction m with
  | nil => simp [lookupId_nil]
  | cons u m ih =>
    simp only [List.map_cons, List.nodup_cons] at hn
    rw [lookupId_cons]
    by_cases h : u.id = k
    · rw [if_pos h]
      constructor
      · intro he
        have hu : u = t := Option.some_injective _ he
        subst hu
        exact ⟨List.mem_cons_self u m, h⟩
      · rintro ⟨hm, ht⟩
        rcases List.mem_cons.mp hm with he | hm
        · rw [he]
        · have : u.id ∈ m.map (·.id) := by
            rw [h, ← ht]
            exact List.mem_map_of_mem (·.id) hm
          exact absurd this hn.1
    · rw [if_neg h, ih hn.2]
      constructor
      · exact fun ⟨hm, ht⟩ => ⟨List.mem_cons_of_mem u hm, ht⟩
      · rintro ⟨hm, ht⟩
        rcases List.mem_cons.mp hm with rfl | hm
        · exact absurd ht h
        · exact ⟨hm, ht⟩

theorem extract_perm_resultMap2 (d : List String) (c : List Translation) :
    (extract d c).Perm (resultMap2 d c) :=
  List.perm_insertionSort _ _

theorem nodup_extract_ids (d : List String) (c : List Translation) :
    ((extract d c).map (·.id)).Nodup :=
  (((extract_perm_resultMap2 d c).map (·.id)).symm).nodup (nodup_resultMap2 d c)

theorem mem_extract_ids_iff (d : List String) (c : List Translation) (k : String) :
    k ∈ (extract d c).map (·.id) ↔ k ∈ i18nStringsOf d := by
  rw [((extract_perm_resultMap2 d c).map (·.id)).mem_iff,
    ← lookupId_isSome_iff, lookupId_resultMap2]
  by_cases hk : k ∈ i18nStringsOf d
  · simp [hk]
  · simp [hk]

theorem mem_extract_iff (d : List String) (c : List Translation) (t : Translation) :
    t ∈ extract d c ↔ (t.id ∈ i18nStringsOf d ∧
      t = (lastCat c t.id).getD { id := t.id, translation := TransValue.str "" }) := by
  rw [(extract_perm_resultMap2 d c).mem_iff]
  have hb := lookupId_eq_some_iff (resultMap2 d c) t.id t (nodup_resultMap2 d c)
  rw [lookupId_resultMap2] at hb
  constructor
  · intro hm
    have := hb.mpr ⟨hm, rfl⟩
    by_cases hk : t.id ∈ i18nStringsOf d
    · rw [if_pos hk] at this
      exact ⟨hk, (Option.some_injective _ this.symm)⟩
    · rw [if_neg hk] at this
      exact absurd this (by simp)
  · rintro ⟨hk, ht⟩
    have : (if t.id ∈ i18nStringsOf d
        then some ((lastCat c t.id).getD { id := t.id, translation := TransValue.str "" })
        else none) = some t := by rw [if_pos hk, ← ht]
    exact (hb.mp this).1

theorem sorted_extract (d : List String) (c : List Translation) :
    List.Pairwise (fun a b : Translation => a.id ≤ b.id) (extract d c) :=
  List.sorted_insertionSort _ _

theorem sorted_lt_extract (d : List String) (c : List Translation) :
    List.Pairwise (fun a b : Translation => a.id < b.id) (extract d c) := by
  have h1 := sorted_extract d c
  have h2 : List.Pairwise (fun a b : Translation => a.id ≠ b.id) (extract d c) :=
    List.pairwise_map.mp (nodup_extract_ids d c)
  exact (h1.and h2).imp (fun h => lt_of_le_of_ne h.1 h.2)

theorem sorted_lt_i18nStringsList (d : List String) :
    List.Pairwise (fun a b : String => a < b) (i18nStringsList d) := by
  have h1 : List.Pairwise (fun a b : String => a ≤ b) (i18nStringsList d) :=
    List.sorted_insertionSort _ _
  exact (h1.and (nodup_i18nStringsList d)).imp (fun h => lt_of_le_of_ne h.1 h.2)

theorem extract_ids_eq (d : List String) (c : List Translation) :
    (extract d c).map (·.id) = i18nStringsList d := by
  have hperm : ((extract d c).map (·.id)).Perm (i18nStringsList d) :=
    (List.perm_ext_iff_of_nodup (nodup_extract_ids d c) (nodup_i18nStringsList d)).mpr
      (fun k => by rw [mem_extract_ids_iff, mem_i18nStringsList])
  exact List.eq_of_perm_of_sorted hperm
    (List.pairwise_map.mpr (sorted_lt_extract d c)) (sorted_lt_i18nStringsList d)

theorem filter_id_eq_singleton (m : List Translation) (k : String) (t : Translation)
    (hn : (m.map (·.id)).Nodup) (h : lookupId m k = some t) :
    m.filter (fun u => decide (u.id = k)) = [t] := by
  induction m with
  | nil => simp [lookupId_nil] at h
  | cons u m ih =>
    simp only [List.map_cons, List.nodup_cons] at hn
    rw [lookupId_cons] at h
    by_cases hu : u.id = k
    · rw [if_pos hu] at h
      rw [List.filter_cons_of_pos (by simp [hu])]
      have hnil : m.filter (fun u => decide (u.id = k)) = [] := by
        rw [List.filter_eq_nil_iff]
        intro a ha
        simp only [decide_eq_true_eq]
        intro hak
        exact hn.1 (by rw [hu, ← hak]; exact List.mem_map_of_mem (·.id) ha)
      rw [hnil, Option.some_injective _ h]
    · rw [if_neg hu] at h
      rw [List.filter_cons_of_neg (by simp [hu]), ih hn.2 h]

theorem lastCat_of_nodup (c : List Translation) (t : Translation)
    (hn : (c.map (·.id)).Nodup) (ht : t ∈ c) : lastCat c t.id = some t := by
  rw [lastCat, filter_id_eq_singleton c t.id t hn
    ((lookupId_eq_some_iff c t.id t hn).mpr ⟨ht, rfl⟩)]
  rfl

theorem getD_lastCat_id (c : List Translation) (k : String) :
    ((lastCat c k).getD { id := k, translation := TransValue.str "" }).id = k := by
  rcases h : lastCat c k with _ | u
  · rfl
  · exact (lastCat_mem_filter c k u h).2

theorem lastCat_extract (d : List String) (c : List Translation) (k : String)
    (hk : k ∈ i18nStringsOf d) :
    lastCat (extract d c) k
      = some ((lastCat c k).getD { id := k, translation := TransValue.str "" }) := by
  have he_id := getD_lastCat_id c k
  have he_mem : ((lastCat c k).getD { id := k, translation := TransValue.str "" })
      ∈ extract d c :=
    (mem_extract_iff d c _).mpr ⟨by rw [he_id]; exact hk, by rw [he_id]⟩
  have hl := lastCat_of_nodup (extract d c) _ (nodup_extract_ids d c) he_mem
  rw [he_id] at hl
  exact hl

/-- C1: after Extract, the identifiers of the output catalog are exactly the
union of the discovered set and the injected identifiers, the output has no
duplicate identifiers, its entries are strictly sorted by identifier, and
the output identifier sequence does not depend on the discovery order or on
the original catalog order. -/
theorem extract_exact_cover_sorted (d : List String) (c : List Translation) :
    (∀ k, k ∈ (extract d c).map (·.id) ↔ (k ∈ d ∨ k ∈ injectedStrings))
    ∧ ((extract d c).map (·.id)).Nodup
    ∧ List.Pairwise (fun a b : Translation => a.id < b.id) (extract d c)
    ∧ (∀ (d' : List String) (c' : List Translation),
        (∀ k, k ∈ d' ↔ k ∈ d) → c'.Perm c →
        (extract d' c').map (·.id) = (extract d c).map (·.id)) := by
  refine ⟨fun k => ?_, nodup_extract_ids d c, sorted_lt_extract d c,
    fun d' c' hd _hc => ?_⟩
  · rw [mem_extract_ids_iff]
    simp [i18nStringsOf]
  · rw [extract_ids_eq, extract_ids_eq]
    refine List.eq_of_perm_of_sorted ?_ (sorted_lt_i18nStringsList d')
      (sorted_lt_i18nStringsList d)
    refine (List.perm_ext_iff_of_nodup (nodup_i18nStringsList d')
      (nodup_i18nStringsList d)).mpr (fun k => ?_)
    rw [mem_i18nStringsList, mem_i18nStringsList]
    simp only [i18nStringsOf, List.mem_append]
    rw [hd k]

/-- Witness for C1: the order-independence clause applied to a concrete
permuted discovery list. -/
theorem extract_exact_cover_sorted_witness :
    (extract ["b.x", "a.x"] []).map (·.id)
      = (extract ["a.x", "b.x", "a.x"] []).map (·.id) :=
  (extract_exact_cover_sorted ["a.x", "b.x", "a.x"] []).2.2.2 ["b.x", "a.x"] []
    (fun k => by simp [List.mem_cons]; tauto) (List.Perm.refl [])

/-- C2: an identifier present both in the catalog and in the
discovered-or-injected set keeps its translated value unchanged in the
Extract output, whatever that value is. -/
theorem extract_preserves_translations (d : List String) (c : List Translation)
    (t : Translation) (hn : (c.map (·.id)).Nodup) (ht : t ∈ c)
    (hd : t.id ∈ d ∨ t.id ∈ injectedStrings) :
    t ∈ extract d c ∧ lookupId (extract d c) t.id = some t := by
  have hl : lastCat c t.id = some t := lastCat_of_nodup c t hn ht
  have hm : t ∈ extract d c :=
    (mem_extract_iff d c t).mpr
      ⟨by simpa [i18nStringsOf] using hd, by rw [hl]; rfl⟩
  exact ⟨hm, (lookupId_eq_some_iff (extract d c) t.id t
    (nodup_extract_ids d c)).mpr ⟨hm, rfl⟩⟩

/-- Witness for C2: a structured pluralization value and an HTML-like value
survive Extract unchanged. -/
theorem extract_preserves_translations_witness :
    ({ id := "b.y", translation := TransValue.obj [("one", "1 x"), ("other", "<b>&</b>")] }
        : Translation)
      ∈ extract ["b.y", "a.z"]
        [{ id := "a.z", translation := TransValue.str "<p>&amp;</p>" },
         { id := "b.y", translation := TransValue.obj [("one", "1 x"), ("other", "<b>&</b>")] }] :=
  (extract_preserves_translations ["b.y", "a.z"]
    [{ id := "a.z", translation := TransValue.str "<p>&amp;</p>" },
     { id := "b.y", translation := TransValue.obj [("one", "1 x"), ("other", "<b>&</b>")] }]
    { id := "b.y", translation := TransValue.obj [("one", "1 x"), ("other", "<b>&</b>")] }
    (by decide) (by decide) (by decide)).1

/-- C4: Extract is idempotent: a second run on the catalog produced by the
first run (same source tree, hence same discovered set) yields the very
same catalog value, hence any deterministic encoder writes byte-identical
output. -/
theorem extract_idempotent (d : List String) (c : List Translation) :
    extract d (extract d c) = extract d c
    ∧ ∀ (enc : List Translation → String),
        enc (extract d (extract d c)) = enc (extract d c) := by
  have key : extract d (extract d c) = extract d c := by
    refine List.eq_of_perm_of_sorted ?_ (sorted_lt_extract d (extract d c))
      (sorted_lt_extract d c)
    refine (List.perm_ext_iff_of_nodup
      (List.Nodup.of_map _ (nodup_extract_ids d (extract d c)))
      (List.Nodup.of_map _ (nodup_extract_ids d c))).mpr (fun t => ?_)
    rw [mem_extract_iff, mem_extract_iff]
    constructor
    · rintro ⟨hk, ht⟩
      rw [lastCat_extract d c t.id hk] at ht
      exact ⟨hk, ht⟩
    · rintro ⟨hk, ht⟩
      rw [lastCat_extract d c t.id hk]
      exact ⟨hk, ht⟩
  exact ⟨key, fun enc => by rw [key]⟩

/-- C10: when the input catalog holds duplicate entries for a discovered
identifier, the Extract output holds exactly one entry for it, carrying the
value of the last duplicate, and the output identifiers are duplicate-free. -/
theorem extract_duplicate_last_wins (d : List String) (c : List Translation)
    (k : String) (t : Translation)
    (hdup : 2 ≤ (c.map (·.id)).count k)
    (hk : k ∈ d ∨ k ∈ injectedStrings)
    (hlast : lastCat c k = some t) :
    (extract d c).filter (fun u => decide (u.id = k)) = [t]
    ∧ ((extract d c).map (·.id)).Nodup := by
  refine ⟨?_, nodup_extract_ids d c⟩
  have hkS : k ∈ i18nStringsOf d := by simpa [i18nStringsOf] using hk
  have htid : t.id = k := (lastCat_mem_filter c k t hlast).2
  have ht : t ∈ extract d c :=
    (mem_extract_iff d c t).mpr
      ⟨by rw [htid]; exact hkS, by rw [htid, hlast]; rfl⟩
  exact filter_id_eq_singleton _ _ _ (nodup_extract_ids d c)
    ((lookupId_eq_some_iff (extract d c) k t (nodup_extract_ids d c)).mpr ⟨ht, htid⟩)

/-- Witness for C10: a catalog with a duplicated id keeps the later value. -/
theorem extract_duplicate_last_wins_witness :
    (extract ["a.b", "x"]
        [{ id := "a.b", translation := TransValue.str "old" },
         { id := "x", translation := TransValue.str "v" },
         { id := "a.b", translation := TransValue.str "new" }]).filter
      (fun u => decide (u.id = "a.b"))
      = [{ id := "a.b", translation := TransValue.str "new" }] :=
  (extract_duplicate_last_wins ["a.b", "x"]
    [{ id := "a.b", translation := TransValue.str "old" },
     { id := "x", translation := TransValue.str "v" },
     { id := "a.b", translation := TransValue.str "new" }]
    "a.b" { id := "a.b", translation := TransValue.str "new" }
    (by decide) (by decide) (by decide)).1

/-- C3: the "Added:" report of Check lists exactly the identifiers Extract
would newly insert (same identifiers, same order), the "Removed:" report
lists exactly the identifiers Extract would delete, and Check succeeds
precisely when both reports are empty. -/
theorem check_agreement (d : List String) (c : List Translation) :
    checkAdded d c
      = ((extract d c).filter (fun t => decide (t.id ∉ c.map (·.id)))).map (·.id)
    ∧ (∀ k, k ∈ checkRemoved d c ↔
        (k ∈ c.map (·.id) ∧ k ∉ (extract d c).map (·.id)))
    ∧ (checkResult d c = Except.ok () ↔
        (checkAdded d c = [] ∧ checkRemoved d c = [])) := by
  refine ⟨?_, fun k => ?_, ?_⟩
  · calc checkAdded d c
        = ((extract d c).map (·.id)).filter (fun k => decide (k ∉ c.map (·.id))) := by
          rw [checkAdded, extract_ids_eq]
      _ = ((extract d c).filter (fun t => decide (t.id ∉ c.map (·.id)))).map (·.id) :=
          List.filter_map (·.id) (extract d c)
  · rw [checkRemoved, List.mem_filter, mem_translationsListOf, mem_extract_ids_iff]
    simp
  · rw [checkResult]
    by_cases h : checkChanged d c
    · rw [if_pos h]
      constructor
      · intro he
        exact absurd he (by simp)
      · rintro ⟨h1, h2⟩
        rw [checkChanged, h1, h2] at h
        simp at h
    · rw [if_neg h]
      rw [checkChanged] at h
      simp only [Bool.or_eq_true, not_or, Bool.not_eq_true', Bool.not_eq_false,
        List.isEmpty_iff] at h
      exact ⟨fun _ => h, fun _ => rfl⟩

theorem litArg_eq_some_iff (args : List GoExpr) (i : Nat) (v : String) :
    litArg args i = some v ↔ ∃ k, args[i]? = some (GoExpr.basicLit k v) := by
  unfold litArg
  rcases h : args[i]? with _ | e
  · simp
  · cases e with
    | basicLit k w => simp
    | nonLit => simp

theorem extractByFuncName_eq_some_iff (name : String) (args : List GoExpr) (v : String) :
    extractByFuncName name args = some v ↔
      ((name = "T" ∨ name = "newAppError" ∨ name = "translateFunc"
          ∨ name = "userLocale" ∨ name = "localT")
        ∧ ∃ k, args[0]? = some (GoExpr.basicLit k v))
      ∨ ((name = "NewAppError" ∨ name = "TranslateAsHtml")
        ∧ ∃ k, args[1]? = some (GoExpr.basicLit k v)) := by
  rw [extractByFuncName]
  split_ifs with h1 h2 h3 h4 h5 h6 h7
  · subst h1; simp [litArg_eq_some_iff]
  · subst h2; simp [litArg_eq_some_iff]
  · subst h3; simp [litArg_eq_some_iff]
  · subst h4; simp [litArg_eq_some_iff]
  · subst h5; simp [litArg_eq_some_iff]
  · subst h6; simp [litArg_eq_some_iff]
  · subst h7; simp [litArg_eq_some_iff]
  · simp [h1, h2, h3, h4, h5, h6, h7]

/-- C5 (amended): the Pattern Matcher matches a call exactly when the
callee's terminal name (selector or bare identifier alike) is one of
T, newAppError, translateFunc, userLocale, localT with a literal first
argument, or one of NewAppError, TranslateAsHtml with a literal second
argument; any other callee yields no match.  (The claim's first fixed set
omits `newAppError`, which the code also recognizes on the first
argument — see the counterexample.) -/
theorem pattern_matcher_characterization :
    (∀ (name : String) (args : List GoExpr) (v : String),
      extractByFuncName name args = some v ↔
        ((name = "T" ∨ name = "newAppError" ∨ name = "translateFunc"
            ∨ name = "userLocale" ∨ name = "localT")
          ∧ ∃ k, args[0]? = some (GoExpr.basicLit k v))
        ∨ ((name = "NewAppError" ∨ name = "TranslateAsHtml")
          ∧ ∃ k, args[1]? = some (GoExpr.basicLit k v)))
    ∧ (∀ (n : String) (args : List GoExpr),
        callExprId (CallFun.selector n) args = extractByFuncName n args
        ∧ callExprId (CallFun.ident n) args = extractByFuncName n args
        ∧ callExprId CallFun.otherFun args = none) :=
  ⟨extractByFuncName_eq_some_iff, fun _ _ => ⟨rfl, rfl, rfl⟩⟩

/-- C5 counterexample: `newAppError` lies outside both fixed sets named by
the claim, yet the matcher produces a match on its literal first
argument. -/
theorem pattern_matcher_newAppError_counterexample :
    callExprId (CallFun.ident "newAppError")
        [GoExpr.basicLit LitKind.strLit "\"x.y\""] = some "\"x.y\""
    ∧ "newAppError" ∉ (["T", "translateFunc", "userLocale", "localT"] ++
        ["NewAppError", "TranslateAsHtml"]) :=
  ⟨by decide, by decide⟩

/-- C6 (amended): a recognized call only ever matches a basic-literal
argument at its designated position (index 0 or 1) — any literal kind, not
only string literals: a non-literal (computed) designated argument yields
no identifier, and the identifier entering the discovered set is the
matched literal value with its surrounding quote characters stripped. -/
theorem literal_only_and_quote_stripping (f : CallFun) (args : List GoExpr)
    (v : String) (h : callExprId f args = some v) :
    (∃ k, args[0]? = some (GoExpr.basicLit k v)
        ∨ args[1]? = some (GoExpr.basicLit k v))
    ∧ callDiscovered f args = some (trimQuotes v) := by
  refine ⟨?_, by rw [callDiscovered, h]; rfl⟩
  cases f with
  | otherFun => exact absurd h (by simp [callExprId])
  | selector n =>
    rcases (extractByFuncName_eq_some_iff n args v).mp h with ⟨_, k, hk⟩ | ⟨_, k, hk⟩
    · exact ⟨k, Or.inl hk⟩
    · exact ⟨k, Or.inr hk⟩
  | ident n =>
    rcases (extractByFuncName_eq_some_iff n args v).mp h with ⟨_, k, hk⟩ | ⟨_, k, hk⟩
    · exact ⟨k, Or.inl hk⟩
    · exact ⟨k, Or.inr hk⟩

/-- Witness for C6: `T("foo.bar")` is matched and the quotes of the source
literal are stripped before the identifier enters the discovered set. -/
theorem literal_only_and_quote_stripping_witness :
    callDiscovered (CallFun.ident "T") [GoExpr.basicLit LitKind.strLit "\"foo.bar\""]
      = some (trimQuotes "\"foo.bar\"")
    ∧ trimQuotes "\"foo.bar\"" = "foo.bar" :=
  ⟨(literal_only_and_quote_stripping (CallFun.ident "T")
      [GoExpr.basicLit LitKind.strLit "\"foo.bar\""] "\"foo.bar\"" (by decide)).2,
   by decide⟩

/-- C6 counterexample: the designated argument of `T(42)` is an integer
literal, not a literal string, yet an identifier is extracted — the code
accepts any `*ast.BasicLit`, not only string literals. -/
theorem nonstring_literal_matched_counterexample :
    callExprId (CallFun.ident "T") [GoExpr.basicLit LitKind.intLit "42"] = some "42"
    ∧ LitKind.intLit ≠ LitKind.strLit
    ∧ callDiscovered (CallFun.ident "T") [GoExpr.basicLit LitKind.intLit "42"]
        = some "42" :=
  ⟨by decide, by decide, by decide⟩

theorem specConstId_eq_some_iff (vs : ValueSpec) (s : String) :
    specConstId vs = some s ↔
      ∃ n k v, vs.names[0]? = some n ∧ n ∈ validConstants
        ∧ vs.values[0]? = some (GoExpr.basicLit k v) ∧ s = trimQuotes v := by
  unfold specConstId
  rcases hn : vs.names[0]? with _ | n
  · simp
  · rcases hv : vs.values[0]? with _ | v
    · simp
    · by_cases hnv : n ∈ validConstants
      · cases v with
        | basicLit k w =>
          simp [extractForCostants, hnv, eq_comm]
          constructor
          · intro h
            exact ⟨k, w, ⟨rfl, rfl⟩, h⟩
          · rintro ⟨x, y, ⟨hk, hw⟩, hs⟩
            rw [← hw] at hs
            exact hs
        | nonLit => simp [extractForCostants, hnv]
      · simp [extractForCostants, hnv]

/-- C7 (amended): a `token.CONST` group contributes an identifier exactly
when some spec of the group has its FIRST declared name in the allow-list
and its FIRST initializer a literal, the contribution being that literal
value with quotes stripped; name/initializer pairs after the first of a
spec are never inspected (see the counterexample). -/
theorem const_group_extraction (specs : List ValueSpec) (s : String) :
    s ∈ genDeclIds DeclTok.constTok specs ↔
      ∃ vs ∈ specs, ∃ n k v,
        vs.names[0]? = some n ∧ n ∈ validConstants
        ∧ vs.values[0]? = some (GoExpr.basicLit k v) ∧ s = trimQuotes v := by
  rw [genDeclIds, if_pos rfl, List.mem_filterMap]
  constructor
  · rintro ⟨vs, hvs, hid⟩
    exact ⟨vs, hvs, (specConstId_eq_some_iff vs s).mp hid⟩
  · rintro ⟨vs, hvs, hex⟩
    exact ⟨vs, hvs, (specConstId_eq_some_iff vs s).mpr hex⟩

/-- C7 counterexample: a single spec declaring two allow-listed names with
two literal initializers: the second pair qualifies under the claim, but
its value is not contributed — only `Names[0]`/`Values[0]` are read. -/
theorem const_group_second_pair_ignored_counterexample :
    genDeclIds DeclTok.constTok
        [{ names := ["MISSING_CHANNEL_ERROR", "CHANNEL_EXISTS_ERROR"],
           values := [GoExpr.basicLit LitKind.strLit "\"a.b\"",
                      GoExpr.basicLit LitKind.strLit "\"c.d\""] }]
      = ["a.b"]
    ∧ "c.d" ∉ genDeclIds DeclTok.constTok
        [{ names := ["MISSING_CHANNEL_ERROR", "CHANNEL_EXISTS_ERROR"],
           values := [GoExpr.basicLit LitKind.strLit "\"a.b\"",
                      GoExpr.basicLit LitKind.strLit "\"c.d\""] }]
    ∧ "CHANNEL_EXISTS_ERROR" ∈ validConstants :=
  ⟨by decide, by decide, by decide⟩

/-- C8: loading the catalog returns an error exactly when the file read
fails; when the bytes are readable, any decode error from `json.Unmarshal`
is discarded and the load succeeds with the (possibly empty) partial
decode result. -/
theorem catalog_load_error_behavior
    (unmarshal : String → List Translation × Option String)
    (readFileResult : Except String String) :
    ((∃ e, getCurrentTranslations unmarshal readFileResult = Except.error e) ↔
      (∃ e, readFileResult = Except.error e))
    ∧ (∀ bytes, readFileResult = Except.ok bytes →
        getCurrentTranslations unmarshal readFileResult
          = Except.ok (unmarshal bytes).1) := by
  cases readFileResult with
  | error e =>
    refine ⟨by simp [getCurrentTranslations], ?_⟩
    intro bytes hb
    exact absurd hb (by simp)
  | ok bytes =>
    refine ⟨by simp [getCurrentTranslations], ?_⟩
    intro b hb
    have : b = bytes := by injection hb.symm
    subst this
    rfl

/-- Witness for C8: malformed JSON bytes whose decode reports an error
still load successfully, with the partial (here empty) decoded value. -/
theorem catalog_load_error_behavior_witness :
    getCurrentTranslations (fun _ => ([], some "unexpected end of JSON input"))
      (Except.ok "[,") = Except.ok [] :=
  (catalog_load_error_behavior (fun _ => ([], some "unexpected end of JSON input"))
    (Except.ok "[,")).2 "[," rfl

/-- C9: a Check run never modifies the catalog file (or any file-system
state): the state after `checkCmdF` equals the state before, whether the
run succeeds, reports out-of-date, or fails to read the catalog — in
contrast to `extractRun`, which rewrites the catalog file. -/
theorem check_readonly (decode : String → List Translation) (d : List String)
    (fs : FileSystem) :
    (checkRun decode d fs).1 = fs
    ∧ ((checkRun decode d fs).1).catalogFile = fs.catalogFile := by
  cases fs with
  | mk cf =>
    cases cf with
    | none => exact ⟨rfl, rfl⟩
    | some bytes => exact ⟨rfl, rfl⟩
